import Mathlib

/-!
# Verification of the keyword-based file search-and-copy tool (src/app.py)

Shallow embedding of the core of `src/app.py`:

* the keyword matcher (the `for kw in keywords` loop of `process_single_file`,
  lines 20-24);
* the collision resolver (the `while target_file.exists()` loop, lines 31-41);
* the per-file task `process_single_file` (lines 10-46), with filesystem
  exceptions modelled by an explicit injection point;
* the directory scan with destination exclusion (`run_parallel_task`
  lines 134-142);
* the dispatcher loop collecting task results (lines 146-166).

Filesystem state is modelled by the list of file names present in the
destination directory; absolute resolved paths are modelled by their
component lists.
-/

namespace CopyTool

/-- Python's `kw in filename` substring test on strings, code-point wise. -/
def strContains (filename kw : String) : Bool :=
  decide (kw.data <:+: filename.data)

/--
The matcher loop of `process_single_file` (src/app.py lines 20-24):
walks `keywords` in order, stops at the first `kw` with `kw in filename`,
yielding `matched_kw`; `none` models `matched_kw is None`.
-/
def matchedKeyword : List String → String → Option String
  | [], _ => none
  | kw :: rest, filename =>
    if strContains filename kw then some kw else matchedKeyword rest filename

theorem strContains_iff (F kw : String) :
    strContains F kw = true ↔ kw.data <:+: F.data := by
  simp [strContains]

theorem matchedKeyword_eq_none_iff (K : List String) (F : String) :
    matchedKeyword K F = none ↔ ∀ kw ∈ K, ¬ kw.data <:+: F.data := by
  induction K with
  | nil => simp [matchedKeyword]
  | cons k rest ih =>
    cases h : strContains F k with
    | true =>
      simp only [matchedKeyword, h, if_true]
      constructor
      · intro hc; exact absurd hc (by simp)
      · intro hall
        exact absurd ((strContains_iff F k).mp h) (hall k (List.mem_cons_self k rest))
    | false =>
      simp only [matchedKeyword, h, Bool.false_eq_true, if_false, ih]
      constructor
      · intro hall kw hkw
        rcases List.mem_cons.mp hkw with rfl | hkw
        · intro hc
          exact absurd ((strContains_iff F kw).mpr hc) (by simp [h])
        · exact hall kw hkw
      · intro hall kw hkw; exact hall kw (List.mem_cons_of_mem _ hkw)

theorem matchedKeyword_eq_some_iff (K : List String) (F : String) (kw : String) :
    matchedKeyword K F = some kw ↔
      ∃ K₁ K₂, K = K₁ ++ kw :: K₂ ∧ kw.data <:+: F.data ∧
        ∀ k ∈ K₁, ¬ k.data <:+: F.data := by
  induction K with
  | nil =>
    simp only [matchedKeyword]
    constructor
    · intro hc; cases hc
    · rintro ⟨K₁, K₂, h, -, -⟩; exact absurd h (by simp)
  | cons k rest ih =>
    cases h : strContains F k with
    | true =>
      simp only [matchedKeyword, h, if_true, Option.some.injEq]
      constructor
      · rintro rfl
        exact ⟨[], rest, rfl, (strContains_iff F k).mp h, by simp⟩
      · rintro ⟨K₁, K₂, heq, hsub, hnone⟩
        cases K₁ with
        | nil =>
          exact (List.cons_eq_cons.mp heq).1
        | cons a K₁ =>
          obtain ⟨h1, -⟩ := List.cons_eq_cons.mp heq
          have ha : a.data <:+: F.data := by
            rw [← h1]; exact (strContains_iff F k).mp h
          exact absurd ha (hnone a (List.mem_cons_self a K₁))
    | false =>
      simp only [matchedKeyword, h, Bool.false_eq_true, if_false, ih]
      constructor
      · rintro ⟨K₁, K₂, heq, hsub, hnone⟩
        refine ⟨k :: K₁, K₂, by simp [heq], hsub, ?_⟩
        intro a ha
        rcases List.mem_cons.mp ha with rfl | ha
        · intro hc
          exact absurd ((strContains_iff F a).mpr hc) (by simp [h])
        · exact hnone a ha
      · rintro ⟨K₁, K₂, heq, hsub, hnone⟩
        cases K₁ with
        | nil =>
          obtain ⟨h1, -⟩ := List.cons_eq_cons.mp heq
          have hk : k.data <:+: F.data := by rw [h1]; exact hsub
          have : strContains F k = true := (strContains_iff F k).mpr hk
          simp [h] at this
        | cons a K₁ =>
          obtain ⟨h1, h2⟩ := List.cons_eq_cons.mp heq
          refine ⟨K₁, K₂, h2, hsub, ?_⟩
          intro b hb; exact hnone b (List.mem_cons_of_mem _ hb)

/--
**C1.** For every filename `F` and ordered keyword list `K`, the matcher of
`process_single_file` returns the first element of `K` (in `K`'s order) that
is a case-sensitive substring of `F`, and returns no match exactly when no
element of `K` is a substring of `F`; the choice depends only on `K`'s order.
-/
theorem matcher_returns_first_substring (K : List String) (F : String) :
    (matchedKeyword K F = none ↔ ∀ kw ∈ K, ¬ kw.data <:+: F.data) ∧
    ∀ kw, matchedKeyword K F = some kw ↔
      ∃ K₁ K₂, K = K₁ ++ kw :: K₂ ∧ kw.data <:+: F.data ∧
        ∀ k ∈ K₁, ¬ k.data <:+: F.data :=
  ⟨matchedKeyword_eq_none_iff K F, fun kw => matchedKeyword_eq_some_iff K F kw⟩

/--
Witness for C1 on concrete data: with keywords `["zz", "port", "p"]` and
filename `"report.txt"`, the matcher picks `"port"` (the first substring in
list order, not the longest nor the shortest).
-/
theorem matcher_returns_first_substring_witness :
    matchedKeyword ["zz", "port", "p"] "report.txt" = some "port" :=
  ((matcher_returns_first_substring ["zz", "port", "p"] "report.txt").2 "port").mpr
    ⟨["zz"], ["p"], rfl, by decide, by decide⟩

/-! ## Collision resolver (src/app.py lines 31-41)

The destination directory's contents are modelled as the list `D` of file
names currently present in it.  `f"{base}_{idx}{ext}"` renders `idx` in
decimal; `natDec` reproduces that rendering (fuel-structured so that it
computes by reduction; the fuel `n` always suffices since `n / 10 < n`).
-/

def natDecAux : Nat → Nat → List Char
  | 0, _ => []
  | _ + 1, 0 => []
  | fuel + 1, n + 1 =>
    natDecAux fuel ((n + 1) / 10) ++ [Nat.digitChar ((n + 1) % 10)]

/-- Decimal rendering of a natural number, as Python string formatting does. -/
def natDec (n : Nat) : String :=
  if n = 0 then "0" else ⟨natDecAux n n⟩

/--
`pathlib`'s stem/suffix split of a file name: the suffix starts at the last
dot, provided that dot is neither the leading character nor the last one;
otherwise the suffix is empty (`Path("a.txt").stem == "a"`,
`Path("a.txt").suffix == ".txt"`, `Path(".bashrc").suffix == ""`).
-/
def splitName (name : String) : String × String :=
  let cs := name.data
  match cs.reverse.findIdx? (· = '.') with
  | none => (name, "")
  | some j =>
    let i := cs.length - 1 - j
    if 0 < i ∧ i < cs.length - 1 then (⟨cs.take i⟩, ⟨cs.drop i⟩) else (name, "")

/-- The candidate name `f"{base}_{idx}{ext}"` probed at index `idx`. -/
def candName (base ext : String) (idx : Nat) : String :=
  base ++ "_" ++ natDec idx ++ ext

/--
The `while target_file.exists()` loop of `process_single_file`
(src/app.py lines 37-41), probing `candName base ext idx`,
`candName base ext (idx+1)`, … against the destination contents `D`.
The loop in the source is unbounded; the embedding carries explicit fuel,
and `probeFrom_fuel_irrelevant` below shows `D.length + 1` always suffices.
-/
def probeFrom (D : List String) (base ext : String) : Nat → Nat → String
  | 0, idx => candName base ext idx
  | fuel + 1, idx =>
    if candName base ext idx ∈ D then probeFrom D base ext fuel (idx + 1)
    else candName base ext idx

/--
The collision-avoidance logic of `process_single_file`
(src/app.py lines 31-41): if `filename` is absent from the destination it is
used unchanged, otherwise suffixed candidates are probed from index 1.
-/
def resolveName (D : List String) (filename : String) : String :=
  if filename ∈ D then
    probeFrom D (splitName filename).1 (splitName filename).2 (D.length + 1) 1
  else filename

theorem natDecAux_zero : ∀ fuel, natDecAux fuel 0 = []
  | 0 => rfl
  | _ + 1 => rfl

theorem natDecAux_ne_nil (fuel n : Nat) (hn : 0 < n) (hfuel : n ≤ fuel) :
    natDecAux fuel n ≠ [] := by
  cases fuel with
  | zero => omega
  | succ f =>
    cases n with
    | zero => omega
    | succ m => simp [natDecAux]

theorem digitChar_inj_lt :
    ∀ a < 10, ∀ b < 10, Nat.digitChar a = Nat.digitChar b → a = b := by decide

theorem natDecAux_inj :
    ∀ a m, 0 < m → m ≤ a → ∀ b n, 0 < n → n ≤ b →
      natDecAux a m = natDecAux b n → m = n := by
  intro a
  induction a with
  | zero => intro m hm hma; omega
  | succ a ih =>
    intro m hm hma b n hn hnb heq
    cases b with
    | zero => omega
    | succ b =>
      obtain ⟨m', rfl⟩ : ∃ m', m = m' + 1 := ⟨m - 1, by omega⟩
      obtain ⟨n', rfl⟩ : ∃ n', n = n' + 1 := ⟨n - 1, by omega⟩
      simp only [natDecAux] at heq
      obtain ⟨hpre, hlast⟩ :=
        List.append_inj' heq (by simp)
      have hdig : (m' + 1) % 10 = (n' + 1) % 10 := by
        have h1 : Nat.digitChar ((m' + 1) % 10) = Nat.digitChar ((n' + 1) % 10) := by
          simpa using hlast
        exact digitChar_inj_lt _ (Nat.mod_lt _ (by omega)) _ (Nat.mod_lt _ (by omega)) h1
      have hdiv : (m' + 1) / 10 = (n' + 1) / 10 := by
        rcases Nat.eq_zero_or_pos ((m' + 1) / 10) with hz | hpos
        · rcases Nat.eq_zero_or_pos ((n' + 1) / 10) with hz' | hpos'
          · omega
          · exfalso
            rw [hz] at hpre
            have : natDecAux b ((n' + 1) / 10) ≠ [] :=
              natDecAux_ne_nil b _ hpos' (by omega)
            exact this (by simpa [natDecAux_zero] using hpre.symm)
        · rcases Nat.eq_zero_or_pos ((n' + 1) / 10) with hz' | hpos'
          · exfalso
            rw [hz'] at hpre
            have : natDecAux a ((m' + 1) / 10) ≠ [] :=
              natDecAux_ne_nil a _ hpos (by omega)
            exact this (by simpa [natDecAux_zero] using hpre)
          · exact ih _ hpos (by omega) _ _ hpos' (by omega) hpre
      omega

theorem natDec_inj (m n : Nat) (hm : 0 < m) (hn : 0 < n)
    (h : natDec m = natDec n) : m = n := by
  unfold natDec at h
  rw [if_neg (by omega), if_neg (by omega)] at h
  have hdata : natDecAux m m = natDecAux n n := congrArg String.data h
  exact natDecAux_inj m m hm le_rfl n n hn le_rfl hdata

theorem candName_inj (base ext : String) (i j : Nat) (hi : 0 < i) (hj : 0 < j)
    (h : candName base ext i = candName base ext j) : i = j := by
  unfold candName at h
  have hdata := congrArg String.data h
  simp only [String.data_append] at hdata
  have h1 : (natDec i).data = (natDec j).data :=
    List.append_cancel_left (List.append_cancel_right hdata)
  exact natDec_inj i j hi hj (String.ext h1)

/-- Pigeonhole: some probe index in `[1, D.length + 1]` is free in `D`. -/
theorem exists_free_candidate (D : List String) (base ext : String) :
    ∃ k, 1 ≤ k ∧ k ≤ D.length + 1 ∧ candName base ext k ∉ D := by
  by_contra hall
  push_neg at hall
  have hsub : (Finset.Icc 1 (D.length + 1)).image (candName base ext) ⊆ D.toFinset := by
    intro s hs
    obtain ⟨k, hk, rfl⟩ := Finset.mem_image.mp hs
    obtain ⟨hk1, hk2⟩ := Finset.mem_Icc.mp hk
    exact List.mem_toFinset.mpr (hall k hk1 hk2)
  have hinj : Set.InjOn (candName base ext) ↑(Finset.Icc 1 (D.length + 1)) := by
    intro i hi j hj hij
    have hi1 : 1 ≤ i := (Finset.mem_Icc.mp hi).1
    have hj1 : 1 ≤ j := (Finset.mem_Icc.mp hj).1
    exact candName_inj base ext i j (by omega) (by omega) hij
  have hcard :
      (Finset.Icc 1 (D.length + 1)).card ≤ D.toFinset.card :=
    le_trans (le_of_eq (Finset.card_image_of_injOn hinj).symm)
      (Finset.card_le_card hsub)
  have h1 : (Finset.Icc 1 (D.length + 1)).card = D.length + 1 := by
    rw [Nat.card_Icc]; omega
  have h2 : D.toFinset.card ≤ D.length := D.toFinset_card_le
  omega

/--
The probe loop returns the first free candidate at or after `idx`, provided
some candidate within the fuel window is free.
-/
theorem probeFrom_spec (D : List String) (base ext : String) :
    ∀ fuel idx, (∃ j, idx ≤ j ∧ j < idx + fuel ∧ candName base ext j ∉ D) →
      ∃ k, idx ≤ k ∧ probeFrom D base ext fuel idx = candName base ext k ∧
        candName base ext k ∉ D ∧
        ∀ j, idx ≤ j → j < k → candName base ext j ∈ D := by
  intro fuel
  induction fuel with
  | zero =>
    intro idx ⟨j, hj1, hj2, _⟩; omega
  | succ f ih =>
    intro idx ⟨j, hj1, hj2, hj3⟩
    by_cases hmem : candName base ext idx ∈ D
    · have hji : idx ≠ j := fun h => hj3 (h ▸ hmem)
      obtain ⟨k, hk1, hk2, hk3, hk4⟩ :=
        ih (idx + 1) ⟨j, by omega, by omega, hj3⟩
      refine ⟨k, by omega, ?_, hk3, ?_⟩
      · simp only [probeFrom]
        rw [if_pos hmem]
        exact hk2
      · intro i hi1 hi2
        rcases Nat.eq_or_lt_of_le hi1 with rfl | hlt
        · exact hmem
        · exact hk4 i (by omega) hi2
    · refine ⟨idx, le_rfl, ?_, hmem, fun j h1 h2 => absurd h2 (by omega)⟩
      simp only [probeFrom]
      rw [if_neg hmem]

/--
With any fuel of at least `D.length + 1` the probe loop starting at index 1
returns the same name: the first free candidate.  (Fuel-irrelevance is the
shallow-embedding counterpart of termination of the source's `while` loop.)
-/
theorem probeFrom_fuel_irrelevant (D : List String) (base ext : String)
    (fuel : Nat) (hfuel : D.length + 1 ≤ fuel) :
    probeFrom D base ext fuel 1 = probeFrom D base ext (D.length + 1) 1 := by
  obtain ⟨k0, hk01, hk02, hk03⟩ := exists_free_candidate D base ext
  obtain ⟨k, hk1, hk2, hk3, hk4⟩ :=
    probeFrom_spec D base ext fuel 1 ⟨k0, hk01, by omega, hk03⟩
  obtain ⟨k', hk'1, hk'2, hk'3, hk'4⟩ :=
    probeFrom_spec D base ext (D.length + 1) 1 ⟨k0, hk01, by omega, hk03⟩
  have : k = k' := by
    rcases Nat.lt_trichotomy k k' with h | h | h
    · exact absurd (hk'4 k hk1 h) hk3
    · exact h
    · exact absurd (hk4 k' hk'1 h) hk'3
  rw [hk2, hk'2, this]

theorem resolveName_spec (D : List String) (filename : String) :
    resolveName D filename ∉ D ∧
    (filename ∉ D → resolveName D filename = filename) ∧
    (filename ∈ D → ∃ k, 1 ≤ k ∧
      resolveName D filename =
        candName (splitName filename).1 (splitName filename).2 k ∧
      candName (splitName filename).1 (splitName filename).2 k ∉ D ∧
      ∀ j, 1 ≤ j → j < k →
        candName (splitName filename).1 (splitName filename).2 j ∈ D) := by
  by_cases hmem : filename ∈ D
  · obtain ⟨k0, hk01, hk02, hk03⟩ :=
      exists_free_candidate D (splitName filename).1 (splitName filename).2
    obtain ⟨k, hk1, hk2, hk3, hk4⟩ :=
      probeFrom_spec D (splitName filename).1 (splitName filename).2
        (D.length + 1) 1 ⟨k0, hk01, by omega, hk03⟩
    have hres : resolveName D filename =
        candName (splitName filename).1 (splitName filename).2 k := by
      unfold resolveName
      rw [if_pos hmem]
      exact hk2
    refine ⟨hres ▸ hk3, fun h => absurd hmem h, fun _ => ⟨k, hk1, hres, hk3, ?_⟩⟩
    intro j hj1 hj2
    exact hk4 j hj1 hj2
  · have hres : resolveName D filename = filename := by
      unfold resolveName
      rw [if_neg hmem]
    exact ⟨by rw [hres]; exact hmem, fun _ => hres, fun h => absurd h hmem⟩

/--
**C2.** The collision resolver of `process_single_file` never returns a name
already present in the destination directory `D`; when `filename` is absent
from `D` it returns `filename` unchanged, and otherwise it probes
`{stem}_1{ext}`, `{stem}_2{ext}`, … in ascending order and returns the first
candidate not present in `D`.
-/
theorem resolver_avoids_collisions (D : List String) (filename : String) :
    resolveName D filename ∉ D ∧
    (filename ∉ D → resolveName D filename = filename) ∧
    (filename ∈ D → ∃ k, 1 ≤ k ∧
      resolveName D filename =
        candName (splitName filename).1 (splitName filename).2 k ∧
      candName (splitName filename).1 (splitName filename).2 k ∉ D ∧
      ∀ j, 1 ≤ j → j < k →
        candName (splitName filename).1 (splitName filename).2 j ∈ D) :=
  resolveName_spec D filename

/--
Witness for C2: with destination contents `["a.txt", "a_1.txt"]` the name
`"a.txt"` collides and the resolver's answer avoids both existing names,
while in an empty destination `"b.txt"` is returned unchanged.
-/
theorem resolver_avoids_collisions_witness :
    ("a.txt" ∈ (["a.txt", "a_1.txt"] : List String)) ∧
    resolveName ["a.txt", "a_1.txt"] "a.txt" ∉ (["a.txt", "a_1.txt"] : List String) ∧
    ("b.txt" ∉ ([] : List String)) ∧
    resolveName [] "b.txt" = "b.txt" :=
  ⟨by decide, (resolver_avoids_collisions ["a.txt", "a_1.txt"] "a.txt").1,
    by decide, (resolver_avoids_collisions [] "b.txt").2.1 (by decide)⟩

/--
**C10.** For every finite destination contents `D` the probe loop
terminates: a free suffix index exists within `D.length + 1` steps, and
running the loop with any fuel beyond that bound changes nothing — i.e. the
source's unbounded `while` loop always exits after finitely many probes.
-/
theorem probe_loop_terminates (D : List String) (base ext : String) :
    ∃ k, 1 ≤ k ∧ k ≤ D.length + 1 ∧ candName base ext k ∉ D ∧
      ∀ fuel, D.length + 1 ≤ fuel →
        probeFrom D base ext fuel 1 = probeFrom D base ext (D.length + 1) 1 := by
  obtain ⟨k, h1, h2, h3⟩ := exists_free_candidate D base ext
  exact ⟨k, h1, h2, h3, fun fuel hf => probeFrom_fuel_irrelevant D base ext fuel hf⟩

/--
Witness for C10 on concrete data: for a destination holding `a_1.txt` the
probe for stem `"a"` and extension `".txt"` stabilises within 2 steps.
-/
theorem probe_loop_terminates_witness :
    ∃ k, 1 ≤ k ∧ k ≤ (["a_1.txt"] : List String).length + 1 ∧
      candName "a" ".txt" k ∉ (["a_1.txt"] : List String) ∧
      ∀ fuel, (["a_1.txt"] : List String).length + 1 ≤ fuel →
        probeFrom ["a_1.txt"] "a" ".txt" fuel 1 =
          probeFrom ["a_1.txt"] "a" ".txt" ((["a_1.txt"] : List String).length + 1) 1 :=
  probe_loop_terminates ["a_1.txt"] "a" ".txt"

/-! ## The per-file task (src/app.py lines 10-46)

`process_single_file` runs inside a `try` block covering the whole body;
any exception is caught and turned into `("ERROR", f"{filepath.name}: {str(e)}")`.
`ExcAt` marks the point at which the modelled filesystem raises an
exception: during the matcher loop, during the existence checks of the
collision resolver, or during `shutil.copy2`.  The task's result is the
Python return value (`None`, `("COPIED", msg)` or `("ERROR", msg)`), paired
with the destination contents after the call.
-/

inductive ExcAt where
  | noExc : ExcAt
  | atMatch (e : String) : ExcAt
  | atResolve (e : String) : ExcAt
  | atCopy (e : String) : ExcAt
deriving DecidableEq

/--
`process_single_file` (src/app.py lines 10-46) on a file named `filename`,
with destination contents `D`.  An exception injected at a stage that is
never reached (e.g. at the copy stage for an unmatched file) does not fire,
mirroring the source control flow.
-/
def process_single_file (filename : String) (keywords : List String)
    (D : List String) (exc : ExcAt) : Option (String × String) × List String :=
  match exc with
  | .atMatch e => (some ("ERROR", filename ++ ": " ++ e), D)
  | .atResolve e =>
    match matchedKeyword keywords filename with
    | none => (none, D)
    | some _ => (some ("ERROR", filename ++ ": " ++ e), D)
  | .atCopy e =>
    match matchedKeyword keywords filename with
    | none => (none, D)
    | some _ => (some ("ERROR", filename ++ ": " ++ e), D)
  | .noExc =>
    match matchedKeyword keywords filename with
    | none => (none, D)
    | some kw =>
      (some ("COPIED", filename ++ " (ヒット: " ++ kw ++ ")"),
        resolveName D filename :: D)

/-! ## The dispatcher loop (src/app.py lines 146-166)

`run_parallel_task` folds over the task results in completion order: a
`None` result or an `("ERROR", _)` result produces no log event (the
`elif status == "ERROR"` branch is `pass`), a `("COPIED", msg)` result
increments `copied_count` and appends one log line.  After the loop,
`ui_finish` appends the final summary line built from `copied_count`.
The theorems below quantify over arbitrary result lists, hence over every
possible completion order of the thread pool.
-/

def dispatchStep (acc : Nat × List String)
    (result : Option (String × String)) : Nat × List String :=
  match result with
  | none => acc
  | some (status, msg) =>
    if status = "COPIED" then (acc.1 + 1, acc.2 ++ ["コピー: " ++ msg])
    else acc

def dispatchEvents (results : List (Option (String × String))) :
    Nat × List String :=
  results.foldl dispatchStep (0, [])

/-- The `ui_finish` summary line (src/app.py line 97). -/
def finishMessage (count : Nat) : String :=
  "--- 完了: " ++ natDec count ++ "ファイルをコピーしました ---"

/-- The full visible outcome of `run_parallel_task`'s collection phase:
final copied count and the log lines in emission order. -/
def runDispatcher (results : List (Option (String × String))) :
    Nat × List String :=
  ((dispatchEvents results).1,
    (dispatchEvents results).2 ++ [finishMessage (dispatchEvents results).1])

/-- Spec-side count of the task results that report a successful copy. -/
def countCopied (results : List (Option (String × String))) : Nat :=
  (results.filter fun r =>
    match r with
    | some (status, _) => decide (status = "COPIED")
    | none => false).length

theorem dispatchEvents_fst (results : List (Option (String × String))) :
    ∀ acc : Nat × List String,
      (results.foldl dispatchStep acc).1 = acc.1 + countCopied results := by
  induction results with
  | nil => intro acc; simp [countCopied]
  | cons r rest ih =>
    intro acc
    match r with
    | none =>
      simp only [List.foldl_cons, dispatchStep, ih, countCopied, List.filter_cons]
      simp
    | some (status, msg) =>
      by_cases h : status = "COPIED"
      · simp only [List.foldl_cons, dispatchStep, h, if_pos rfl, ih]
        simp [countCopied, List.filter_cons, h]
        omega
      · simp only [List.foldl_cons, dispatchStep, if_neg h, ih]
        simp [countCopied, List.filter_cons, h]

theorem dispatchStep_error (acc : Nat × List String) (msg : String) :
    dispatchStep acc (some ("ERROR", msg)) = acc := by
  simp [dispatchStep]

theorem dispatchEvents_drop_error (rs₁ rs₂ : List (Option (String × String)))
    (msg : String) :
    dispatchEvents (rs₁ ++ some ("ERROR", msg) :: rs₂) =
      dispatchEvents (rs₁ ++ rs₂) := by
  unfold dispatchEvents
  rw [List.foldl_append, List.foldl_append, List.foldl_cons, dispatchStep_error]

/--
**C5.** The final count reported by the dispatcher equals exactly the number
of task results carrying a `COPIED` outcome — no-match and failed tasks
contribute zero — and the summary line is emitted only after every task
result has been folded in: it is the last element of the log, after all
per-file events.
-/
theorem final_count_is_copied_count (results : List (Option (String × String))) :
    (runDispatcher results).1 = countCopied results ∧
    (runDispatcher results).2 =
      (dispatchEvents results).2 ++ [finishMessage (countCopied results)] := by
  have h : (dispatchEvents results).1 = countCopied results := by
    have := dispatchEvents_fst results (0, [])
    simpa [dispatchEvents] using this
  exact ⟨h, by rw [runDispatcher, h]⟩

/--
**C6.** A candidate file whose name matches no keyword contributes nothing:
the task returns `None` and leaves the destination contents unchanged, and
the dispatcher step on a `None` result emits no event and leaves the copied
count untouched.
-/
theorem no_match_contributes_nothing (filename : String) (keywords : List String)
    (D : List String) (h : matchedKeyword keywords filename = none) :
    process_single_file filename keywords D .noExc = (none, D) ∧
    ∀ acc : Nat × List String,
      dispatchStep acc (process_single_file filename keywords D .noExc).1 = acc := by
  have h1 : process_single_file filename keywords D .noExc = (none, D) := by
    simp [process_single_file, h]
  exact ⟨h1, fun acc => by rw [h1, dispatchStep]⟩

/--
Witness for C6: `report.txt` matches neither `invoice` nor `2023`, so its
task yields `None`, the destination stays `["x.txt"]`, and the dispatcher
state is unchanged.
-/
theorem no_match_contributes_nothing_witness :
    process_single_file "report.txt" ["invoice", "2023"] ["x.txt"] .noExc =
      (none, ["x.txt"]) ∧
    dispatchStep (3, ["ev"])
      (process_single_file "report.txt" ["invoice", "2023"] ["x.txt"] .noExc).1 =
      (3, ["ev"]) :=
  ⟨(no_match_contributes_nothing "report.txt" ["invoice", "2023"] ["x.txt"]
      (by decide)).1,
    (no_match_contributes_nothing "report.txt" ["invoice", "2023"] ["x.txt"]
      (by decide)).2 (3, ["ev"])⟩

/--
**C7.** Every exception raised inside the per-file processing — during
matching, collision resolution or copying — is caught by the task's
`try`/`except` and turned into an `("ERROR", ...)` result whose message
starts with the file's name; the dispatcher folds such a result as a no-op,
so one file's failure never aborts the run or affects any other task.
-/
theorem exception_isolated_per_file (filename : String) (keywords : List String)
    (D : List String) (e : String) :
    (process_single_file filename keywords D (.atMatch e)).1 =
      some ("ERROR", filename ++ ": " ++ e) ∧
    ((matchedKeyword keywords filename).isSome →
      (process_single_file filename keywords D (.atResolve e)).1 =
          some ("ERROR", filename ++ ": " ++ e) ∧
      (process_single_file filename keywords D (.atCopy e)).1 =
          some ("ERROR", filename ++ ": " ++ e)) ∧
    ∀ rs₁ rs₂ : List (Option (String × String)),
      runDispatcher (rs₁ ++ some ("ERROR", filename ++ ": " ++ e) :: rs₂) =
        runDispatcher (rs₁ ++ rs₂) := by
  refine ⟨rfl, ?_, ?_⟩
  · intro h
    obtain ⟨kw, hkw⟩ := Option.isSome_iff_exists.mp h
    constructor
    · simp [process_single_file, hkw]
    · simp [process_single_file, hkw]
  · intro rs₁ rs₂
    rw [runDispatcher, runDispatcher, dispatchEvents_drop_error]

/--
Witness for C7: with keyword list `["a"]` and file `a.txt` (which matches),
an exception `boom` injected at each of the three stages yields an
`ERROR` result naming the file, and the dispatcher drops it unchanged.
-/
theorem exception_isolated_per_file_witness :
    (process_single_file "a.txt" ["a"] [] (.atMatch "boom")).1 =
      some ("ERROR", "a.txt: boom") ∧
    ((process_single_file "a.txt" ["a"] [] (.atResolve "boom")).1 =
        some ("ERROR", "a.txt: boom") ∧
      (process_single_file "a.txt" ["a"] [] (.atCopy "boom")).1 =
        some ("ERROR", "a.txt: boom")) ∧
    runDispatcher [some ("ERROR", "a.txt: boom")] = runDispatcher [] := by
  obtain ⟨h1, h2, h3⟩ := exception_isolated_per_file "a.txt" ["a"] [] "boom"
  exact ⟨h1, h2 (by decide), h3 [] []⟩

/--
**C4, counterexample.** A matched file whose copy fails produces an
`("ERROR", ...)` task result, yet the dispatcher delivers no event for it:
the per-file event stream is empty and the only visible line is the final
summary reporting zero copies.  The claim that a Failed event for the file
appears in the caller-visible output stream is false on the code (the
`elif status == "ERROR"` branch of `run_parallel_task` is `pass`).
-/
theorem failed_copy_not_delivered_counterexample :
    (process_single_file "a.txt" ["a"] [] (.atCopy "Permission denied")).1 =
      some ("ERROR", "a.txt: Permission denied") ∧
    (dispatchEvents
      [(process_single_file "a.txt" ["a"] [] (.atCopy "Permission denied")).1]).2 =
      [] ∧
    (runDispatcher
      [(process_single_file "a.txt" ["a"] [] (.atCopy "Permission denied")).1]).2 =
      [finishMessage 0] := by
  refine ⟨by decide, by decide, by decide⟩

/--
**C4, amended.** A matched file whose copy fails produces a Failed result
recorded for that file (its message carries the file's name and the error
reason) and the run continues past it, but the dispatcher silently discards
the Failed result: the visible output stream (log events and final summary)
is exactly what it would have been had the task never run.
-/
theorem failed_copy_recorded_but_not_delivered (filename : String)
    (keywords : List String) (D : List String) (e : String)
    (h : (matchedKeyword keywords filename).isSome) :
    (process_single_file filename keywords D (.atCopy e)).1 =
      some ("ERROR", filename ++ ": " ++ e) ∧
    ∀ rs₁ rs₂ : List (Option (String × String)),
      runDispatcher (rs₁ ++ (process_single_file filename keywords D (.atCopy e)).1 :: rs₂) =
        runDispatcher (rs₁ ++ rs₂) := by
  obtain ⟨kw, hkw⟩ := Option.isSome_iff_exists.mp h
  have h1 : (process_single_file filename keywords D (.atCopy e)).1 =
      some ("ERROR", filename ++ ": " ++ e) := by
    simp [process_single_file, hkw]
  refine ⟨h1, fun rs₁ rs₂ => ?_⟩
  rw [h1, runDispatcher, runDispatcher, dispatchEvents_drop_error]

/--
Witness for the amended C4: the failing copy of `a.txt` (matched by `"a"`)
is recorded as `ERROR` and the dispatcher output with it equals the
dispatcher output without it.
-/
theorem failed_copy_recorded_but_not_delivered_witness :
    (process_single_file "a.txt" ["a"] [] (.atCopy "disk full")).1 =
      some ("ERROR", "a.txt: disk full") ∧
    runDispatcher [(process_single_file "a.txt" ["a"] [] (.atCopy "disk full")).1] =
      runDispatcher [] := by
  obtain ⟨h1, h2⟩ :=
    failed_copy_recorded_but_not_delivered "a.txt" ["a"] [] "disk full" (by decide)
  exact ⟨h1, by simpa using h2 [] []⟩

/--
**C9.** If the keyword list contains the empty string, the matcher succeeds
on every filename (the empty string is a substring of everything) and the
task copies the file; `None` is only possible when every keyword is a
non-empty string that does not occur in the filename.
-/
theorem empty_keyword_matches_everything (keywords : List String) (F : String) :
    ("" ∈ keywords →
      (matchedKeyword keywords F).isSome ∧
      ∀ D : List String, ∃ m,
        (process_single_file F keywords D .noExc).1 = some ("COPIED", m) ∧
        (process_single_file F keywords D .noExc).2 = resolveName D F :: D) ∧
    (matchedKeyword keywords F = none →
      ∀ kw ∈ keywords, kw ≠ "" ∧ ¬ kw.data <:+: F.data) := by
  constructor
  · intro hmem
    have hnone : matchedKeyword keywords F ≠ none := by
      intro hn
      exact (matchedKeyword_eq_none_iff keywords F).mp hn "" hmem List.nil_infix
    obtain ⟨kw, hkw⟩ := Option.ne_none_iff_exists'.mp hnone
    refine ⟨by simp [hkw], fun D => ?_⟩
    exact ⟨F ++ " (ヒット: " ++ kw ++ ")", by simp [process_single_file, hkw],
      by simp [process_single_file, hkw]⟩
  · intro hn kw hkw
    have hno := (matchedKeyword_eq_none_iff keywords F).mp hn kw hkw
    exact ⟨fun he => hno (by rw [he]; exact List.nil_infix), hno⟩

/--
Witness for C9: the keyword list `["zz", ""]` matches the unrelated
filename `"photo.raw"` (via the empty keyword), and the task copies it.
-/
theorem empty_keyword_matches_everything_witness :
    (matchedKeyword ["zz", ""] "photo.raw").isSome ∧
    ∃ m, (process_single_file "photo.raw" ["zz", ""] [] .noExc).1 =
        some ("COPIED", m) ∧
      (process_single_file "photo.raw" ["zz", ""] [] .noExc).2 =
        resolveName [] "photo.raw" :: [] := by
  obtain ⟨h1, h2⟩ :=
    (empty_keyword_matches_everything ["zz", ""] "photo.raw").1 (by decide)
  exact ⟨h1, h2 []⟩

/-! ## The directory scan (src/app.py lines 131-142)

Absolute resolved paths are modelled as their component lists (the
filesystem root is `[]`).  `os.walk` is modelled by the list of directories
it visits, each paired with the names of the plain files it holds; the
destination-exclusion test `dst_path_obj == current_dir or dst_path_obj in
current_dir.parents` becomes the prefix test below.
-/

abbrev AbsPath := List String

/-- `pathlib`'s `parents` of a resolved path: every proper ancestor, the
filesystem root included. -/
def pathAncestors (p : AbsPath) : List AbsPath :=
  (List.range p.length).map fun i => p.take i

/--
The file-listing loop of `run_parallel_task` (src/app.py lines 135-142):
a visited directory equal to the destination root or having it among its
ancestors is skipped entirely (`continue`); every other directory
contributes `current_dir / f` for each of its files `f`.
-/
def scanFiles (entries : List (AbsPath × List String)) (dst : AbsPath) :
    List AbsPath :=
  entries.flatMap fun e =>
    if dst = e.1 ∨ dst ∈ pathAncestors e.1 then []
    else e.2.map fun f => e.1 ++ [f]

theorem mem_pathAncestors (dst p : AbsPath) :
    dst ∈ pathAncestors p ↔ ∃ i, i < p.length ∧ dst = p.take i := by
  unfold pathAncestors
  constructor
  · intro h
    obtain ⟨i, hi, rfl⟩ := List.mem_map.mp h
    exact ⟨i, List.mem_range.mp hi, rfl⟩
  · rintro ⟨i, hi, rfl⟩
    exact List.mem_map.mpr ⟨i, List.mem_range.mpr hi, rfl⟩

/--
**C3.** Provided the destination root is a directory (so never equal to a
scanned file's path), the scanned candidate set contains neither the
destination root itself nor any path having the destination root as an
ancestor: when the destination lies inside the source tree, it and all its
descendants are excluded.
-/
theorem scan_excludes_destination (entries : List (AbsPath × List String))
    (dst : AbsPath)
    (hfile : ∀ e ∈ entries, ∀ f ∈ e.2, e.1 ++ [f] ≠ dst) :
    ∀ p ∈ scanFiles entries dst, p ≠ dst ∧ dst ∉ pathAncestors p := by
  intro p hp
  obtain ⟨e, he, hpe⟩ := List.mem_flatMap.mp hp
  by_cases hskip : dst = e.1 ∨ dst ∈ pathAncestors e.1
  · rw [if_pos hskip] at hpe
    exact absurd hpe (List.not_mem_nil p)
  · rw [if_neg hskip] at hpe
    obtain ⟨f, hf, rfl⟩ := List.mem_map.mp hpe
    push_neg at hskip
    refine ⟨hfile e he f hf, fun hanc => ?_⟩
    obtain ⟨i, hi, hdst⟩ := (mem_pathAncestors dst (e.1 ++ [f])).mp hanc
    simp only [List.length_append, List.length_singleton] at hi
    rcases Nat.lt_or_ge i e.1.length with hlt | hge
    · have : dst = e.1.take i := by
        rw [hdst, List.take_append_of_le_length (le_of_lt hlt)]
      exact hskip.2 ((mem_pathAncestors dst e.1).mpr ⟨i, hlt, this⟩)
    · have hieq : i = e.1.length := by omega
      have : dst = e.1 := by
        rw [hdst, hieq, List.take_append_of_le_length le_rfl, List.take_length]
      exact hskip.1 this

/--
Witness for C3: scanning source `/data` whose subdirectory `/data/out` is
the destination keeps `/data/a.txt` and drops everything under `/data/out`.
-/
theorem scan_excludes_destination_witness :
    (["data", "a.txt"] : AbsPath) ∈
      scanFiles [(["data"], ["a.txt"]), (["data", "out"], ["b.txt"])]
        ["data", "out"] ∧
    (["data", "a.txt"] : AbsPath) ≠ ["data", "out"] ∧
    (["data", "out"] : AbsPath) ∉ pathAncestors ["data", "a.txt"] :=
  ⟨by decide,
    scan_excludes_destination [(["data"], ["a.txt"]), (["data", "out"], ["b.txt"])]
      ["data", "out"] (by decide) ["data", "a.txt"] (by decide)⟩

/-! ## A whole run of the copy job

`runTasks` serialises the per-file tasks of `run_parallel_task`
(src/app.py lines 149-153): each task checks the destination contents and,
on a successful copy, adds its resolved target name.  It returns the final
destination contents together with the list of task results handed to the
dispatcher.  No exceptions are injected (every copy succeeds).
-/

def runTasks (keywords : List String) :
    List String → List String → List String × List (Option (String × String))
  | [], D => (D, [])
  | f :: rest, D =>
    let r := process_single_file f keywords D .noExc
    let rr := runTasks keywords rest r.2
    (rr.1, r.1 :: rr.2)

theorem runTasks_state (keywords : List String) :
    ∀ (files : List String) (D : List String),
      ∃ new, (runTasks keywords files D).1 = new ++ D ∧ new.Nodup ∧
        ∀ n ∈ new, n ∉ D := by
  intro files
  induction files with
  | nil => intro D; exact ⟨[], rfl, List.nodup_nil, by simp⟩
  | cons f rest ih =>
    intro D
    cases hm : matchedKeyword keywords f with
    | none =>
      have hr : process_single_file f keywords D .noExc = (none, D) := by
        simp [process_single_file, hm]
      obtain ⟨new, h1, h2, h3⟩ := ih D
      refine ⟨new, ?_, h2, h3⟩
      simp only [runTasks, hr]
      exact h1
    | some kw =>
      have hr : (process_single_file f keywords D .noExc).2 =
          resolveName D f :: D := by
        simp [process_single_file, hm]
      have hw : resolveName D f ∉ D := (resolveName_spec D f).1
      obtain ⟨new, h1, h2, h3⟩ := ih (resolveName D f :: D)
      refine ⟨new ++ [resolveName D f], ?_, ?_, ?_⟩
      · simp only [runTasks, hr]
        rw [h1]
        simp
      · refine List.Nodup.append h2 (List.nodup_singleton _) ?_
        intro a ha hb
        have hb' : a = resolveName D f := List.mem_singleton.mp hb
        exact (h3 a ha) (by rw [hb']; exact List.mem_cons_self _ D)
      · intro n hn
        rcases List.mem_append.mp hn with hn | hn
        · exact fun hD => (h3 n hn) (List.mem_cons_of_mem _ hD)
        · rw [List.mem_singleton.mp hn]; exact hw

theorem runTasks_mono (keywords : List String) (files : List String)
    (D : List String) : ∀ n ∈ D, n ∈ (runTasks keywords files D).1 := by
  obtain ⟨new, h1, -, -⟩ := runTasks_state keywords files D
  intro n hn
  rw [h1]
  exact List.mem_append_right new hn

/-- After a run, every matched file's bare name is present in the
destination: either it was already there, or the resolver kept it unchanged
and the copy created it. -/
theorem runTasks_matched_name_present (keywords : List String) :
    ∀ (files : List String) (D : List String) (f : String), f ∈ files →
      (matchedKeyword keywords f).isSome → f ∈ (runTasks keywords files D).1 := by
  intro files
  induction files with
  | nil => intro D f hf; exact absurd hf (List.not_mem_nil f)
  | cons g rest ih =>
    intro D f hf hmatch
    rcases List.mem_cons.mp hf with rfl | hf
    · obtain ⟨kw, hkw⟩ := Option.isSome_iff_exists.mp hmatch
      have hr : (process_single_file f keywords D .noExc).2 =
          resolveName D f :: D := by
        simp [process_single_file, hkw]
      have hin : f ∈ resolveName D f :: D := by
        by_cases hD : f ∈ D
        · exact List.mem_cons_of_mem _ hD
        · rw [(resolveName_spec D f).2.1 hD]
          exact List.mem_cons_self f D
      simp only [runTasks, hr]
      exact runTasks_mono keywords rest (resolveName D f :: D) f hin
    · simp only [runTasks]
      exact ih _ f hf hmatch

/-- Every name a run adds to a destination that already holds the bare names
of all matched files is a suffixed name `{stem}_{k}{ext}` with `k ≥ 1`. -/
theorem runTasks_new_names_suffixed (keywords : List String) :
    ∀ (files : List String) (D : List String),
      (∀ f ∈ files, (matchedKeyword keywords f).isSome → f ∈ D) →
      ∀ n ∈ (runTasks keywords files D).1, n ∉ D →
        ∃ b x k, 1 ≤ k ∧ n = candName b x k := by
  intro files
  induction files with
  | nil =>
    intro D hpre n hn hnD
    exact absurd hn hnD
  | cons g rest ih =>
    intro D hpre n hn hnD
    cases hm : matchedKeyword keywords g with
    | none =>
      have hr : process_single_file g keywords D .noExc = (none, D) := by
        simp [process_single_file, hm]
      simp only [runTasks, hr] at hn
      exact ih D (fun f hf => hpre f (List.mem_cons_of_mem _ hf)) n hn hnD
    | some kw =>
      have hgD : g ∈ D := hpre g (List.mem_cons_self g rest) (by simp [hm])
      obtain ⟨k, hk1, hres, -, -⟩ := (resolveName_spec D g).2.2 hgD
      have hr : (process_single_file g keywords D .noExc).2 =
          resolveName D g :: D := by
        simp [process_single_file, hm]
      simp only [runTasks, hr] at hn
      by_cases hnD' : n ∈ resolveName D g :: D
      · rcases List.mem_cons.mp hnD' with rfl | hmem
        · exact ⟨(splitName g).1, (splitName g).2, k, hk1, hres⟩
        · exact absurd hmem hnD
      · exact ih (resolveName D g :: D)
          (fun f hf hmf => List.mem_cons_of_mem _ (hpre f (List.mem_cons_of_mem _ hf) hmf))
          n hn hnD'

/-- The task results of an exception-free run report `COPIED` exactly for
the matched files. -/
theorem runTasks_count (keywords : List String) :
    ∀ (files : List String) (D : List String),
      countCopied (runTasks keywords files D).2 =
        (files.filter fun f => (matchedKeyword keywords f).isSome).length := by
  intro files
  induction files with
  | nil => intro D; simp [runTasks, countCopied]
  | cons f rest ih =>
    intro D
    cases hm : matchedKeyword keywords f with
    | none =>
      have hr : process_single_file f keywords D .noExc = (none, D) := by
        simp [process_single_file, hm]
      simp only [runTasks, hr, countCopied, List.filter_cons]
      simpa [countCopied, hm] using ih D
    | some kw =>
      have hr1 : (process_single_file f keywords D .noExc).1 =
          some ("COPIED", f ++ " (ヒット: " ++ kw ++ ")") := by
        simp [process_single_file, hm]
      simp only [runTasks, countCopied, List.filter_cons, hr1]
      simpa [countCopied, hm] using ih (process_single_file f keywords D .noExc).2

/--
**C8.** Running the copy job a second time with the same keywords, files and
destination never overwrites anything the first run produced: the second
run only adds names that were absent after the first run (each a suffixed
`{stem}_{k}{ext}` with `k ≥ 1`, since every matched bare name already sits
in the destination), pairwise distinct, and its reported final count equals
the number of matched files.
-/
theorem second_run_adds_only_suffixed_names (keywords files D : List String) :
    (∃ new,
      (runTasks keywords files (runTasks keywords files D).1).1 =
        new ++ (runTasks keywords files D).1 ∧
      new.Nodup ∧
      (∀ n ∈ new, n ∉ (runTasks keywords files D).1) ∧
      (∀ n ∈ new, ∃ b x k, 1 ≤ k ∧ n = candName b x k)) ∧
    countCopied (runTasks keywords files (runTasks keywords files D).1).2 =
      (files.filter fun f => (matchedKeyword keywords f).isSome).length := by
  obtain ⟨new, h1, h2, h3⟩ :=
    runTasks_state keywords files (runTasks keywords files D).1
  refine ⟨⟨new, h1, h2, h3, ?_⟩, runTasks_count keywords files _⟩
  intro n hn
  refine runTasks_new_names_suffixed keywords files (runTasks keywords files D).1
    (fun f hf hmf => runTasks_matched_name_present keywords files D f hf hmf)
    n ?_ (h3 n hn)
  rw [h1]
  exact List.mem_append_left _ hn

/--
Witness for C8 on concrete data: keywords `["a"]`, one source file `a.txt`,
initially empty destination.  The first run yields `["a.txt"]`; the second
run adds only the fresh suffixed name and again reports one copy.
-/
theorem second_run_adds_only_suffixed_names_witness :
    (∃ new,
      (runTasks ["a"] ["a.txt"] (runTasks ["a"] ["a.txt"] []).1).1 =
        new ++ (runTasks ["a"] ["a.txt"] []).1 ∧
      new.Nodup ∧
      (∀ n ∈ new, n ∉ (runTasks ["a"] ["a.txt"] []).1) ∧
      (∀ n ∈ new, ∃ b x k, 1 ≤ k ∧ n = candName b x k)) ∧
    countCopied (runTasks ["a"] ["a.txt"] (runTasks ["a"] ["a.txt"] []).1).2 =
      ((["a.txt"] : List String).filter fun f =>
        (matchedKeyword ["a"] f).isSome).length :=
  second_run_adds_only_suffixed_names ["a"] ["a.txt"] []

end CopyTool
